import Mathlib

/-!
Verification of the planning library (a goal-oriented action planner).

The Action and Goal capability contracts, the planner entry point and the
agent orchestration layer are translated from src/action.rs, src/goal.rs,
src/plan.rs and src/agent.rs. The A* search itself lives in the external
pathfinding crate, and the stable sort and max_by_key come from the Rust
standard library; those three are modelled from the spec's algorithm
description and from their documented contracts, as marked on each
definition.
-/

namespace Planning

/-- Capability contract for actions, translated from src/action.rs: an
applicability test, a state transition and a state-dependent cost (an i32,
modelled as Int). The in-place apply_mut and the clone-then-mutate apply
coincide in a pure embedding, so a single apply field represents both.
The cost default of 1 mirrors the trait's default method. -/
class Action (S : Type) (A : Type) where
  is_applicable : A → S → Bool
  apply : A → S → S
  cost : A → S → Int := fun _ _ => 1

/-- Capability contract for goals, translated from src/goal.rs: a satisfaction
test, a heuristic estimate and a priority, with the trait's default values. -/
class Goal (S : Type) (G : Type) where
  is_satisfied : G → S → Bool
  heuristic : G → S → Int := fun _ _ => 0
  priority : G → S → Int := fun _ _ => 0

variable {S A G : Type}

/-- The state obtained by applying a list of actions in order. -/
def applySeq [Action S A] : S → List A → S
  | s, [] => s
  | s, a :: rest => applySeq (Action.apply a s) rest

/-- The total cost of a list of actions applied in order from a state:
each action is charged its cost in the state it is applied to. -/
def seqCost [Action S A] : S → List A → Int
  | _, [] => 0
  | s, a :: rest => Action.cost a s + seqCost (Action.apply a s) rest

/-- A sequence of actions is valid from a state when every action is drawn
from the given collection and is applicable in the state it meets. -/
def validSeq [Action S A] [DecidableEq A] (actions : List A) : S → List A → Bool
  | _, [] => true
  | s, a :: rest =>
    decide (a ∈ actions) && Action.is_applicable a s && validSeq actions (Action.apply a s) rest

/-- A state is reachable when some valid action sequence produces it. -/
def Reachable [Action S A] [DecidableEq A] (actions : List A) (s0 s : S) : Prop :=
  ∃ p, validSeq actions s0 p = true ∧ applySeq s0 p = s

/-- Search node, translated from src/plan.rs (PlanNode): a state plus the
optional incoming action; node identity combines both fields. -/
structure PlanNode (S A : Type) where
  state : S
  action : Option A
  deriving DecidableEq

/-- Modelled from the spec (section 4.3): an element of the A* open set of the
external pathfinding crate's astar, carrying the node, the accumulated cost g
from the start, and the action sequence from the root to the node. -/
structure OpenEntry (S A : Type) where
  node : PlanNode S A
  g : Int
  path : List A

/-- The A* evaluation g + h of an open entry. -/
def fScore [Goal S G] (goal : G) (e : OpenEntry S A) : Int :=
  e.g + Goal.heuristic goal e.node.state

/-- Modelled from the spec (section 4.3): popping the open set returns an
entry with minimal g + h, together with the remaining entries. Among equal
keys the leftmost is taken; the spec promises no particular tie-break. -/
def selectMin [Goal S G] (goal : G) :
    List (OpenEntry S A) → Option (OpenEntry S A × List (OpenEntry S A))
  | [] => none
  | e :: rest =>
    match selectMin goal rest with
    | none => some (e, rest)
    | some (m, others) =>
      if fScore goal e ≤ fScore goal m then some (e, rest) else some (m, e :: others)

/-- Lookup in the best-known-cost map (the crate's parents map), keyed by
node identity. -/
def lookupBest [DecidableEq S] [DecidableEq A] :
    List (PlanNode S A × Int) → PlanNode S A → Option Int
  | [], _ => none
  | (k, v) :: rest, n => if n = k then some v else lookupBest rest n

/-- Update or insert a binding in the best-known-cost map. -/
def insertBest [DecidableEq S] [DecidableEq A] :
    List (PlanNode S A × Int) → PlanNode S A → Int → List (PlanNode S A × Int)
  | [], n, v => [(n, v)]
  | (k, w) :: rest, n, v =>
    if n = k then (k, v) :: rest else (k, w) :: insertBest rest n v

/-- Modelled from the spec (section 4.3): expanding a popped entry walks the
action collection in order, and for each applicable action relaxes the child
node: a node reached with a strictly lower g than its best-known value
supersedes it and is pushed; otherwise the new path is discarded. Returns the
updated best map and the pushed entries. -/
def relaxChildren [Action S A] [DecidableEq S] [DecidableEq A] (e : OpenEntry S A) :
    List A → List (PlanNode S A × Int) →
    List (PlanNode S A × Int) × List (OpenEntry S A)
  | [], best => (best, [])
  | a :: rest, best =>
    if Action.is_applicable a e.node.state then
      let child : PlanNode S A := ⟨Action.apply a e.node.state, some a⟩
      let g' := e.g + Action.cost a e.node.state
      let improves :=
        match lookupBest best child with
        | none => true
        | some gOld => decide (g' < gOld)
      if improves then
        let r := relaxChildren e rest (insertBest best child g')
        (r.1, ⟨child, g', e.path ++ [a]⟩ :: r.2)
      else relaxChildren e rest best
    else relaxChildren e rest best

/-- Modelled from the spec (section 4.3): the A* main loop of the external
pathfinding crate's astar. Success when a popped node satisfies the goal
(returning its g and the action sequence from the root, the success test
coming before the staleness test as in the crate); stale entries, whose g
exceeds the best known for their node, are discarded; failure when the open
set empties. The fuel argument bounds the iterations, standing for the spec's
assumption of an effectively finite state space. -/
def astarLoop [Action S A] [Goal S G] [DecidableEq S] [DecidableEq A]
    (actions : List A) (goal : G) :
    Nat → List (OpenEntry S A) → List (PlanNode S A × Int) → Option (List A × Int)
  | 0, _, _ => none
  | Nat.succ fuel, opn, best =>
    match selectMin goal opn with
    | none => none
    | some (e, rest) =>
      if Goal.is_satisfied goal e.node.state then some (e.path, e.g)
      else
        match lookupBest best e.node with
        | some gB =>
          if gB < e.g then astarLoop actions goal fuel rest best
          else
            let r := relaxChildren e actions best
            astarLoop actions goal fuel (rest ++ r.2) r.1
        | none =>
          let r := relaxChildren e actions best
          astarLoop actions goal fuel (rest ++ r.2) r.1

/-- The planner, translated from src/plan.rs: the root node pairs the initial
state with no incoming action, and the search is seeded with that node at
cost 0, exactly as the crate seeds its heap and parents map. -/
def plan [Action S A] [Goal S G] [DecidableEq S] [DecidableEq A]
    (fuel : Nat) (initial_state : S) (actions : List A) (goal : G) :
    Option (List A × Int) :=
  astarLoop actions goal fuel
    [⟨⟨initial_state, none⟩, 0, []⟩] [(⟨initial_state, none⟩, 0)]

/-- The agent aggregate, translated from src/agent.rs: a current state, the
available actions and the candidate goals. -/
structure Agent (S A G : Type) where
  state : S
  actions : List A
  goals : List G

/-- Modelled from the Rust standard library's documented contract for the
stable slice sort used by Agent::sort_goals: a stable insertion step that
places a goal before the first stored goal whose priority does not exceed
its own. -/
def insertGoalSorted [Goal S G] (st : S) (g : G) : List G → List G
  | [] => [g]
  | h :: t =>
    if Goal.priority h st ≤ Goal.priority g st then g :: h :: t
    else h :: insertGoalSorted st g t

/-- Translated from Agent::sort_goals (src/agent.rs): sort the goals in
descending order of priority under the given state with a stable sort; the
sort itself is modelled from the standard library's stability contract. -/
def sort_goals [Goal S G] (st : S) : List G → List G
  | [] => []
  | g :: t => insertGoalSorted st g (sort_goals st t)

/-- Translated from Agent::new (src/agent.rs): store the fields and sort the
goals by priority under the initial state. -/
def Agent.new [Goal S G] (state : S) (actions : List A) (goals : List G) :
    Agent S A G :=
  ⟨state, actions, sort_goals state goals⟩

/-- Translated from Agent::plan_constant (src/agent.rs): walk the goals in
their stored order and return the first for which the planner succeeds,
with its plan and cost. -/
def Agent.plan_constant [Action S A] [Goal S G] [DecidableEq S] [DecidableEq A]
    (fuel : Nat) (ag : Agent S A G) : Option (G × List A × Int) :=
  ag.goals.findSome? fun g =>
    (plan fuel ag.state ag.actions g).map fun pc => (g, pc.1, pc.2)

/-- Translated from Agent::plan_dynamic (src/agent.rs): re-sort the goals by
priority under the current state, then behave like plan_constant. The Rust
method mutates the agent in place; the embedding returns the updated agent
next to the result. -/
def Agent.plan_dynamic [Action S A] [Goal S G] [DecidableEq S] [DecidableEq A]
    (fuel : Nat) (ag : Agent S A G) :
    Agent S A G × Option (G × List A × Int) :=
  let ag' : Agent S A G := ⟨ag.state, ag.actions, sort_goals ag.state ag.goals⟩
  (ag', ag'.plan_constant fuel)

/-- Translated from Agent::plan_all (src/agent.rs): attempt to plan for every
goal in stored order and collect the successes. -/
def Agent.plan_all [Action S A] [Goal S G] [DecidableEq S] [DecidableEq A]
    (fuel : Nat) (ag : Agent S A G) : List (G × List A × Int) :=
  ag.goals.filterMap fun g =>
    (plan fuel ag.state ag.actions g).map fun pc => (g, pc.1, pc.2)

/-- The profit of a plan_all entry: the goal's priority under the agent's
state minus the plan's total cost, as in Agent::plan_profit. -/
def profit [Goal S G] (st : S) (ent : G × List A × Int) : Int :=
  Goal.priority ent.1 st - ent.2.2

/-- Modelled from the Rust standard library's documented contract for
Iterator::max_by_key: the maximal element, and of several equally maximal
elements the last. -/
def maxByKeyLast {α : Type} (f : α → Int) : List α → Option α
  | [] => none
  | x :: rest =>
    match maxByKeyLast f rest with
    | none => some x
    | some m => if f m < f x then some x else some m

/-- Translated from Agent::plan_profit (src/agent.rs): run plan_all and keep
the entry of maximal profit, via the standard library's max_by_key. -/
def Agent.plan_profit [Action S A] [Goal S G] [DecidableEq S] [DecidableEq A]
    (fuel : Nat) (ag : Agent S A G) : Option (G × List A × Int) :=
  maxByKeyLast (profit ag.state) (ag.plan_all fuel)

/-! ### Lemmas about action sequences -/

theorem applySeq_append [Action S A] (s : S) (p q : List A) :
    applySeq s (p ++ q) = applySeq (applySeq s p) q := by
  induction p generalizing s with
  | nil => rfl
  | cons a rest ih => simp [applySeq, ih]

theorem seqCost_append [Action S A] (s : S) (p q : List A) :
    seqCost s (p ++ q) = seqCost s p + seqCost (applySeq s p) q := by
  induction p generalizing s with
  | nil => simp [seqCost, applySeq]
  | cons a rest ih => simp [seqCost, applySeq, ih]; ring

theorem validSeq_append [Action S A] [DecidableEq A] (actions : List A) (s : S)
    (p q : List A) :
    validSeq actions s (p ++ q) =
      (validSeq actions s p && validSeq actions (applySeq s p) q) := by
  induction p generalizing s with
  | nil => simp [validSeq, applySeq]
  | cons a rest ih =>
    simp only [List.cons_append, validSeq, applySeq, List.append_eq, ih, Bool.and_assoc]

theorem seqCost_nonneg [Action S A] [DecidableEq A] {actions : List A}
    (hcost : ∀ a ∈ actions, ∀ s : S, 0 ≤ Action.cost a s) :
    ∀ (s : S) (p : List A), validSeq actions s p = true → 0 ≤ seqCost s p := by
  intro s p
  induction p generalizing s with
  | nil => intro _; simp [seqCost]
  | cons a rest ih =>
    intro hv
    simp only [validSeq, Bool.and_eq_true, decide_eq_true_eq] at hv
    have h1 := hcost a hv.1.1 s
    have h2 := ih (Action.apply a s) hv.2
    simp only [seqCost]
    omega

/-! ### Lemmas about the open-set minimum selection -/

theorem selectMin_eq_none [Goal S G] (goal : G) (l : List (OpenEntry S A)) :
    selectMin goal l = none ↔ l = [] := by
  cases l with
  | nil => simp [selectMin]
  | cons e rest =>
    simp only [selectMin]
    cases h : selectMin goal rest with
    | none => simp
    | some p =>
      obtain ⟨m, others⟩ := p
      by_cases hle : fScore goal e ≤ fScore goal m <;> simp [hle]

theorem selectMin_perm [Goal S G] (goal : G) :
    ∀ (l rest : List (OpenEntry S A)) (e : OpenEntry S A),
      selectMin goal l = some (e, rest) → l.Perm (e :: rest) := by
  intro l
  induction l with
  | nil => intro rest e h; simp [selectMin] at h
  | cons x xs ih =>
    intro rest e h
    simp only [selectMin] at h
    cases hxs : selectMin goal xs with
    | none =>
      rw [hxs] at h
      simp only [Option.some.injEq, Prod.mk.injEq] at h
      obtain ⟨rfl, rfl⟩ := h
      exact List.Perm.refl _
    | some p =>
      obtain ⟨m, others⟩ := p
      rw [hxs] at h
      by_cases hle : fScore goal x ≤ fScore goal m
      · simp only [hle, if_true, Option.some.injEq, Prod.mk.injEq] at h
        obtain ⟨rfl, rfl⟩ := h
        exact List.Perm.refl _
      · simp only [hle, if_false, Option.some.injEq, Prod.mk.injEq] at h
        obtain ⟨rfl, rfl⟩ := h
        have hperm := ih others m hxs
        exact (hperm.cons x).trans (List.Perm.swap m x others)

theorem selectMin_min [Goal S G] (goal : G) :
    ∀ (l rest : List (OpenEntry S A)) (e : OpenEntry S A),
      selectMin goal l = some (e, rest) →
      ∀ x ∈ l, fScore goal e ≤ fScore goal x := by
  intro l
  induction l with
  | nil => intro rest e h; simp [selectMin] at h
  | cons y ys ih =>
    intro rest e h x hx
    simp only [selectMin] at h
    cases hys : selectMin goal ys with
    | none =>
      rw [hys] at h
      simp only [Option.some.injEq, Prod.mk.injEq] at h
      obtain ⟨rfl, rfl⟩ := h
      have : ys = [] := (selectMin_eq_none goal ys).mp hys
      subst this
      simp only [List.mem_singleton] at hx
      subst hx
      exact le_refl _
    | some p =>
      obtain ⟨m, others⟩ := p
      rw [hys] at h
      by_cases hle : fScore goal y ≤ fScore goal m
      · simp only [hle, if_true, Option.some.injEq, Prod.mk.injEq] at h
        obtain ⟨rfl, rfl⟩ := h
        rcases List.mem_cons.mp hx with rfl | hmem
        · exact le_refl _
        · exact le_trans hle (ih others m hys x hmem)
      · simp only [hle, if_false, Option.some.injEq, Prod.mk.injEq] at h
        obtain ⟨rfl, rfl⟩ := h
        rcases List.mem_cons.mp hx with rfl | hmem
        · exact le_of_lt (lt_of_not_le hle)
        · exact ih others m hys x hmem

/-! ### Lemmas about the best-known-cost map -/

theorem lookupBest_insertBest_self [DecidableEq S] [DecidableEq A]
    (best : List (PlanNode S A × Int)) (n : PlanNode S A) (v : Int) :
    lookupBest (insertBest best n v) n = some v := by
  induction best with
  | nil => simp [insertBest, lookupBest]
  | cons kv rest ih =>
    obtain ⟨k, w⟩ := kv
    by_cases h : n = k
    · simp [insertBest, lookupBest, h]
    · simp [insertBest, lookupBest, h, ih]

theorem lookupBest_insertBest_ne [DecidableEq S] [DecidableEq A]
    (best : List (PlanNode S A × Int)) (n m : PlanNode S A) (v : Int)
    (hne : m ≠ n) :
    lookupBest (insertBest best n v) m = lookupBest best m := by
  induction best with
  | nil => simp [insertBest, lookupBest, hne]
  | cons kv rest ih =>
    obtain ⟨k, w⟩ := kv
    by_cases h : n = k
    · subst h
      simp [insertBest, lookupBest, hne]
    · by_cases h2 : m = k
      · simp [insertBest, lookupBest, h, h2]
      · simp [insertBest, lookupBest, h, h2, ih]

/-! ### Lemmas about child relaxation -/

theorem relaxChildren_mem [Action S A] [DecidableEq S] [DecidableEq A]
    (e : OpenEntry S A) :
    ∀ (as : List A) (best : List (PlanNode S A × Int)),
      ∀ x ∈ (relaxChildren e as best).2,
        ∃ a ∈ as, Action.is_applicable a e.node.state = true ∧
          x.node = ⟨Action.apply a e.node.state, some a⟩ ∧
          x.g = e.g + Action.cost a e.node.state ∧
          x.path = e.path ++ [a] := by
  intro as
  induction as with
  | nil => intro best x hx; simp [relaxChildren] at hx
  | cons a rest ih =>
    intro best x hx
    simp only [relaxChildren] at hx
    cases hap : Action.is_applicable a e.node.state with
    | false =>
      simp only [hap, Bool.false_eq_true, if_false] at hx
      obtain ⟨b, hb, hrest⟩ := ih best x hx
      exact ⟨b, List.mem_cons_of_mem a hb, hrest⟩
    | true =>
      simp only [hap, if_true] at hx
      set child : PlanNode S A := ⟨Action.apply a e.node.state, some a⟩ with hchild
      set g' : Int := e.g + Action.cost a e.node.state with hg'
      cases hlk : lookupBest best child with
      | none =>
        simp only [hlk] at hx
        rcases List.mem_cons.mp hx with rfl | hmem
        · exact ⟨a, List.mem_cons_self a rest, hap, rfl, rfl, rfl⟩
        · obtain ⟨b, hb, hrest⟩ := ih (insertBest best child g') x hmem
          exact ⟨b, List.mem_cons_of_mem a hb, hrest⟩
      | some gOld =>
        simp only [hlk] at hx
        by_cases hlt : g' < gOld
        · simp only [decide_eq_true hlt, if_true] at hx
          rcases List.mem_cons.mp hx with rfl | hmem
          · exact ⟨a, List.mem_cons_self a rest, hap, rfl, rfl, rfl⟩
          · obtain ⟨b, hb, hrest⟩ := ih (insertBest best child g') x hmem
            exact ⟨b, List.mem_cons_of_mem a hb, hrest⟩
        · simp only [decide_eq_false hlt, Bool.false_eq_true, if_false] at hx
          obtain ⟨b, hb, hrest⟩ := ih best x hx
          exact ⟨b, List.mem_cons_of_mem a hb, hrest⟩

theorem relaxChildren_mono [Action S A] [DecidableEq S] [DecidableEq A]
    (e : OpenEntry S A) :
    ∀ (as : List A) (best : List (PlanNode S A × Int)) (n : PlanNode S A) (g : Int),
      lookupBest best n = some g →
      ∃ g', lookupBest (relaxChildren e as best).1 n = some g' ∧ g' ≤ g := by
  intro as
  induction as with
  | nil => intro best n g h; exact ⟨g, h, le_refl g⟩
  | cons a rest ih =>
    intro best n g h
    simp only [relaxChildren]
    cases hap : Action.is_applicable a e.node.state with
    | false =>
      simp only [Bool.false_eq_true, if_false]
      exact ih best n g h
    | true =>
      simp only [if_true]
      set child : PlanNode S A := ⟨Action.apply a e.node.state, some a⟩ with hchild
      set g' : Int := e.g + Action.cost a e.node.state with hg'
      cases hlk : lookupBest best child with
      | none =>
        simp only
        by_cases hnc : n = child
        · subst hnc; rw [h] at hlk; cases hlk
        · have : lookupBest (insertBest best child g') n = some g :=
            (lookupBest_insertBest_ne best child n g' hnc).trans h
          exact ih (insertBest best child g') n g this
      | some gOld =>
        simp only
        by_cases hlt : g' < gOld
        · simp only [decide_eq_true hlt, if_true]
          by_cases hnc : n = child
          · subst hnc
            rw [h] at hlk
            cases hlk
            have hself := lookupBest_insertBest_self best child g'
            obtain ⟨g2, hg2, hle2⟩ := ih (insertBest best child g') child g' hself
            exact ⟨g2, hg2, le_trans hle2 (le_of_lt hlt)⟩
          · have : lookupBest (insertBest best child g') n = some g :=
              (lookupBest_insertBest_ne best child n g' hnc).trans h
            exact ih (insertBest best child g') n g this
        · simp only [decide_eq_false hlt, Bool.false_eq_true, if_false]
          exact ih best n g h

theorem relaxChildren_fixed [Action S A] [DecidableEq S] [DecidableEq A]
    (e : OpenEntry S A) :
    ∀ (as : List A) (best : List (PlanNode S A × Int)) (b : A),
      lookupBest best ⟨Action.apply b e.node.state, some b⟩ =
        some (e.g + Action.cost b e.node.state) →
      lookupBest (relaxChildren e as best).1 ⟨Action.apply b e.node.state, some b⟩ =
        some (e.g + Action.cost b e.node.state) := by
  intro as
  induction as with
  | nil => intro best b h; exact h
  | cons a rest ih =>
    intro best b h
    simp only [relaxChildren]
    cases hap : Action.is_applicable a e.node.state with
    | false =>
      simp only [Bool.false_eq_true, if_false]
      exact ih best b h
    | true =>
      simp only [if_true]
      set child : PlanNode S A := ⟨Action.apply a e.node.state, some a⟩ with hchild
      set g' : Int := e.g + Action.cost a e.node.state with hg'
      by_cases heq : (⟨Action.apply b e.node.state, some b⟩ : PlanNode S A) = child
      · have hab : b = a := by
          have := congrArg PlanNode.action heq
          simpa using this
        subst hab
        rw [hchild] at heq
        rw [heq] at h
        rw [h]
        have : ¬ (g' < g') := lt_irrefl g'
        simp only [decide_eq_false this, Bool.false_eq_true, if_false]
        exact ih best b (heq ▸ h)
      · cases hlk : lookupBest best child with
        | none =>
          simp only
          have : lookupBest (insertBest best child g')
              ⟨Action.apply b e.node.state, some b⟩ =
              some (e.g + Action.cost b e.node.state) :=
            (lookupBest_insertBest_ne best child _ g' heq).trans h
          exact ih (insertBest best child g') b this
        | some gOld =>
          simp only
          by_cases hlt : g' < gOld
          · simp only [decide_eq_true hlt, if_true]
            have : lookupBest (insertBest best child g')
                ⟨Action.apply b e.node.state, some b⟩ =
                some (e.g + Action.cost b e.node.state) :=
              (lookupBest_insertBest_ne best child _ g' heq).trans h
            exact ih (insertBest best child g') b this
          · simp only [decide_eq_false hlt, Bool.false_eq_true, if_false]
            exact ih best b h

theorem relaxChildren_newsbest [Action S A] [DecidableEq S] [DecidableEq A]
    (e : OpenEntry S A) :
    ∀ (as : List A) (best : List (PlanNode S A × Int)),
      ∀ x ∈ (relaxChildren e as best).2,
        lookupBest (relaxChildren e as best).1 x.node = some x.g := by
  intro as
  induction as with
  | nil => intro best x hx; simp [relaxChildren] at hx
  | cons a rest ih =>
    intro best x hx
    simp only [relaxChildren] at hx ⊢
    cases hap : Action.is_applicable a e.node.state with
    | false =>
      simp only [hap, Bool.false_eq_true, if_false] at hx ⊢
      exact ih best x hx
    | true =>
      simp only [hap, if_true] at hx ⊢
      set child : PlanNode S A := ⟨Action.apply a e.node.state, some a⟩ with hchild
      set g' : Int := e.g + Action.cost a e.node.state with hg'
      cases hlk : lookupBest best child with
      | none =>
        simp only [hlk] at hx ⊢
        rcases List.mem_cons.mp hx with rfl | hmem
        · exact relaxChildren_fixed e rest (insertBest best child g') a
            (lookupBest_insertBest_self best child g')
        · exact ih (insertBest best child g') x hmem
      | some gOld =>
        simp only [hlk] at hx ⊢
        by_cases hlt : g' < gOld
        · simp only [decide_eq_true hlt, if_true] at hx ⊢
          rcases List.mem_cons.mp hx with rfl | hmem
          · exact relaxChildren_fixed e rest (insertBest best child g') a
              (lookupBest_insertBest_self best child g')
          · exact ih (insertBest best child g') x hmem
        · simp only [decide_eq_false hlt, Bool.false_eq_true, if_false] at hx ⊢
          exact ih best x hx

theorem relaxChildren_changed [Action S A] [DecidableEq S] [DecidableEq A]
    (e : OpenEntry S A) :
    ∀ (as : List A) (best : List (PlanNode S A × Int)) (n : PlanNode S A),
      lookupBest (relaxChildren e as best).1 n ≠ lookupBest best n →
      ∃ x ∈ (relaxChildren e as best).2, x.node = n := by
  intro as
  induction as with
  | nil => intro best n h; simp [relaxChildren] at h
  | cons a rest ih =>
    intro best n h
    simp only [relaxChildren] at h ⊢
    cases hap : Action.is_applicable a e.node.state with
    | false =>
      simp only [hap, Bool.false_eq_true, if_false] at h ⊢
      exact ih best n h
    | true =>
      simp only [hap, if_true] at h ⊢
      set child : PlanNode S A := ⟨Action.apply a e.node.state, some a⟩ with hchild
      set g' : Int := e.g + Action.cost a e.node.state with hg'
      by_cases hnc : n = child
      · cases hlk : lookupBest best child with
        | none =>
          simp only [hlk]
          exact ⟨⟨child, g', e.path ++ [a]⟩, List.mem_cons_self _ _, hnc.symm⟩
        | some gOld =>
          simp only [hlk]
          by_cases hlt : g' < gOld
          · simp only [decide_eq_true hlt, if_true]
            exact ⟨⟨child, g', e.path ++ [a]⟩, List.mem_cons_self _ _, hnc.symm⟩
          · simp only [decide_eq_false hlt, Bool.false_eq_true, if_false]
            simp only [hlk, decide_eq_false hlt, Bool.false_eq_true, if_false] at h
            exact ih best n h
      · cases hlk : lookupBest best child with
        | none =>
          simp only [hlk] at h ⊢
          have hne : lookupBest (insertBest best child g') n = lookupBest best n :=
            lookupBest_insertBest_ne best child n g' hnc
          rw [← hne] at h
          obtain ⟨x, hx, hxn⟩ := ih (insertBest best child g') n h
          exact ⟨x, List.mem_cons_of_mem _ hx, hxn⟩
        | some gOld =>
          simp only [hlk] at h ⊢
          by_cases hlt : g' < gOld
          · simp only [decide_eq_true hlt, if_true] at h ⊢
            have hne : lookupBest (insertBest best child g') n = lookupBest best n :=
              lookupBest_insertBest_ne best child n g' hnc
            rw [← hne] at h
            obtain ⟨x, hx, hxn⟩ := ih (insertBest best child g') n h
            exact ⟨x, List.mem_cons_of_mem _ hx, hxn⟩
          · simp only [decide_eq_false hlt, Bool.false_eq_true, if_false] at h ⊢
            exact ih best n h

theorem relaxChildren_bound [Action S A] [DecidableEq S] [DecidableEq A]
    (e : OpenEntry S A) :
    ∀ (as : List A) (best : List (PlanNode S A × Int)),
      ∀ a ∈ as, Action.is_applicable a e.node.state = true →
      ∃ g', lookupBest (relaxChildren e as best).1
              ⟨Action.apply a e.node.state, some a⟩ = some g' ∧
            g' ≤ e.g + Action.cost a e.node.state := by
  intro as
  induction as with
  | nil => intro best a ha; simp at ha
  | cons b rest ih =>
    intro best a ha hap
    simp only [relaxChildren]
    cases hbp : Action.is_applicable b e.node.state with
    | false =>
      simp only [Bool.false_eq_true, if_false]
      rcases List.mem_cons.mp ha with rfl | hmem
      · rw [hap] at hbp; cases hbp
      · exact ih best a hmem hap
    | true =>
      simp only [if_true]
      set child : PlanNode S A := ⟨Action.apply b e.node.state, some b⟩ with hchild
      set g' : Int := e.g + Action.cost b e.node.state with hg'
      rcases List.mem_cons.mp ha with rfl | hmem
      · cases hlk : lookupBest best child with
        | none =>
          simp only
          obtain ⟨g2, hg2, hle2⟩ := relaxChildren_mono e rest (insertBest best child g')
            child g' (lookupBest_insertBest_self best child g')
          exact ⟨g2, hg2, hle2⟩
        | some gOld =>
          simp only
          by_cases hlt : g' < gOld
          · simp only [decide_eq_true hlt, if_true]
            obtain ⟨g2, hg2, hle2⟩ := relaxChildren_mono e rest (insertBest best child g')
              child g' (lookupBest_insertBest_self best child g')
            exact ⟨g2, hg2, hle2⟩
          · simp only [decide_eq_false hlt, Bool.false_eq_true, if_false]
            obtain ⟨g2, hg2, hle2⟩ := relaxChildren_mono e rest best child gOld hlk
            exact ⟨g2, hg2, le_trans hle2 (le_of_not_lt hlt)⟩
      · cases hlk : lookupBest best child with
        | none =>
          simp only
          exact ih (insertBest best child g') a hmem hap
        | some gOld =>
          simp only
          by_cases hlt : g' < gOld
          · simp only [decide_eq_true hlt, if_true]
            exact ih (insertBest best child g') a hmem hap
          · simp only [decide_eq_false hlt, Bool.false_eq_true, if_false]
            exact ih best a hmem hap

/-! ### Search invariants -/

/-- An open entry is sound: its recorded path is valid from the initial
state, produces its node's state and costs exactly its g. -/
def entryOk [Action S A] [DecidableEq A] (actions : List A) (s0 : S)
    (x : OpenEntry S A) : Prop :=
  validSeq actions s0 x.path = true ∧ applySeq s0 x.path = x.node.state ∧
    seqCost s0 x.path = x.g

/-- Every open entry's node has a best-known value no larger than the
entry's g. -/
def bestInv [DecidableEq S] [DecidableEq A] (opn : List (OpenEntry S A))
    (best : List (PlanNode S A × Int)) : Prop :=
  ∀ x ∈ opn, ∃ g, lookupBest best x.node = some g ∧ g ≤ x.g

/-- Every recorded node either has an open entry at its best-known value, or
is an already expanded non-satisfying node all of whose children are relaxed
with respect to that value. -/
def goodInv [Action S A] [Goal S G] [DecidableEq S] [DecidableEq A]
    (actions : List A) (goal : G) (opn : List (OpenEntry S A))
    (best : List (PlanNode S A × Int)) : Prop :=
  ∀ (n : PlanNode S A) (gn : Int), lookupBest best n = some gn →
    (∃ x ∈ opn, x.node = n ∧ x.g = gn) ∨
    (Goal.is_satisfied goal n.state = false ∧
      ∀ a ∈ actions, Action.is_applicable a n.state = true →
        ∃ g', lookupBest best ⟨Action.apply a n.state, some a⟩ = some g' ∧
              g' ≤ gn + Action.cost a n.state)

/-- The start node stays recorded with a non-positive best-known value. -/
def startInv [DecidableEq S] [DecidableEq A] (s0 : S)
    (best : List (PlanNode S A × Int)) : Prop :=
  ∃ g, lookupBest best (⟨s0, none⟩ : PlanNode S A) = some g ∧ g ≤ 0

theorem relaxChildren_entryOk [Action S A] [DecidableEq S] [DecidableEq A]
    {actions : List A} {s0 : S} {e : OpenEntry S A}
    (he : entryOk actions s0 e) (best : List (PlanNode S A × Int)) :
    ∀ x ∈ (relaxChildren e actions best).2, entryOk actions s0 x := by
  intro x hx
  obtain ⟨a, ha, hap, hnode, hg, hpath⟩ := relaxChildren_mem e actions best x hx
  obtain ⟨hv, hs, hc⟩ := he
  refine ⟨?_, ?_, ?_⟩
  · rw [hpath, validSeq_append, hv, hs]
    simp [validSeq, ha, hap]
  · rw [hpath, applySeq_append, hs, hnode]
    rfl
  · rw [hpath, seqCost_append, hs, hc, hg]
    simp [seqCost]

theorem expand_bestInv [Action S A] [DecidableEq S] [DecidableEq A]
    {actions : List A} {opn rest : List (OpenEntry S A)} {e : OpenEntry S A}
    {best : List (PlanNode S A × Int)}
    (hperm : opn.Perm (e :: rest)) (hb : bestInv opn best) :
    bestInv (rest ++ (relaxChildren e actions best).2)
      (relaxChildren e actions best).1 := by
  intro x hx
  rcases List.mem_append.mp hx with hx | hx
  · obtain ⟨g, hg, hle⟩ := hb x (hperm.mem_iff.mpr (List.mem_cons_of_mem e hx))
    obtain ⟨g2, hg2, hle2⟩ := relaxChildren_mono e actions best x.node g hg
    exact ⟨g2, hg2, le_trans hle2 hle⟩
  · exact ⟨x.g, relaxChildren_newsbest e actions best x hx, le_refl _⟩

theorem expand_startInv [Action S A] [DecidableEq S] [DecidableEq A]
    {actions : List A} {e : OpenEntry S A} {best : List (PlanNode S A × Int)}
    {s0 : S} (hs : startInv s0 best) :
    startInv s0 (relaxChildren e actions best).1 := by
  obtain ⟨g, hg, hle⟩ := hs
  obtain ⟨g2, hg2, hle2⟩ := relaxChildren_mono e actions best _ g hg
  exact ⟨g2, hg2, le_trans hle2 hle⟩

theorem expand_goodInv [Action S A] [Goal S G] [DecidableEq S] [DecidableEq A]
    {actions : List A} {goal : G} {opn rest : List (OpenEntry S A)}
    {e : OpenEntry S A} {best : List (PlanNode S A × Int)}
    (hcost : ∀ a ∈ actions, ∀ s : S, 0 ≤ Action.cost a s)
    (hperm : opn.Perm (e :: rest))
    (hginv : goodInv actions goal opn best)
    (hbe : lookupBest best e.node = some e.g)
    (hsat : Goal.is_satisfied goal e.node.state = false) :
    goodInv actions goal (rest ++ (relaxChildren e actions best).2)
      (relaxChildren e actions best).1 := by
  have hkeep : lookupBest (relaxChildren e actions best).1 e.node = some e.g := by
    by_cases hch : lookupBest (relaxChildren e actions best).1 e.node =
        lookupBest best e.node
    · rw [hch, hbe]
    · obtain ⟨x, hx, hxn⟩ := relaxChildren_changed e actions best e.node hch
      obtain ⟨a, ha, hap, hnode, hxg, _⟩ := relaxChildren_mem e actions best x hx
      have hxb := relaxChildren_newsbest e actions best x hx
      rw [hxn] at hxb
      obtain ⟨g2, hg2, hle2⟩ := relaxChildren_mono e actions best e.node e.g hbe
      rw [hxb] at hg2
      have h1 : x.g = g2 := by injection hg2
      have h2 : 0 ≤ Action.cost a e.node.state := hcost a ha _
      have : x.g = e.g := by rw [hxg]; omega
      rw [hxb, this]
  intro n gn hlkn
  by_cases hne : n = e.node
  · subst hne
    have hgn : gn = e.g := by rw [hkeep] at hlkn; injection hlkn with h; exact h.symm
    refine Or.inr ⟨hsat, ?_⟩
    intro a ha hap
    obtain ⟨g', hg', hle'⟩ := relaxChildren_bound e actions best a ha hap
    exact ⟨g', hg', by rw [hgn]; exact hle'⟩
  · by_cases hch : lookupBest (relaxChildren e actions best).1 n = lookupBest best n
    · have hbn : lookupBest best n = some gn := by rw [← hch, hlkn]
      rcases hginv n gn hbn with ⟨x, hxopn, hxn, hxg⟩ | ⟨hnsat, hbounds⟩
      · left
        rcases List.mem_cons.mp (hperm.mem_iff.mp hxopn) with rfl | hxrest
        · exact absurd hxn.symm hne
        · exact ⟨x, List.mem_append_left _ hxrest, hxn, hxg⟩
      · right
        refine ⟨hnsat, ?_⟩
        intro a ha hap
        obtain ⟨g', hg', hle'⟩ := hbounds a ha hap
        obtain ⟨g2, hg2, hle2⟩ := relaxChildren_mono e actions best _ g' hg'
        exact ⟨g2, hg2, le_trans hle2 hle'⟩
    · obtain ⟨x, hx, hxn⟩ := relaxChildren_changed e actions best n hch
      have hxb := relaxChildren_newsbest e actions best x hx
      rw [hxn] at hxb
      left
      refine ⟨x, List.mem_append_right _ hx, hxn, ?_⟩
      rw [hxb] at hlkn
      injection hlkn
  -- the x = e case above: x.node = e.node contradicts hne

theorem stale_goodInv [Action S A] [Goal S G] [DecidableEq S] [DecidableEq A]
    {actions : List A} {goal : G} {opn rest : List (OpenEntry S A)}
    {e : OpenEntry S A} {best : List (PlanNode S A × Int)} {gB : Int}
    (hperm : opn.Perm (e :: rest))
    (hginv : goodInv actions goal opn best)
    (hstale : lookupBest best e.node = some gB) (hlt : gB < e.g) :
    goodInv actions goal rest best := by
  intro n gn hlkn
  rcases hginv n gn hlkn with ⟨x, hxopn, hxn, hxg⟩ | hr
  · left
    rcases List.mem_cons.mp (hperm.mem_iff.mp hxopn) with rfl | hxrest
    · exfalso
      rw [← hxn] at hlkn
      rw [hstale] at hlkn
      have h1 : gB = gn := by injection hlkn
      omega
    · exact ⟨x, hxrest, hxn, hxg⟩
  · exact Or.inr hr

/-- Frontier lemma: while the invariant holds, any recorded node with a
goal-reaching valid suffix yields an open entry that still lies on some
goal-reaching route of no greater total cost. -/
theorem frontier [Action S A] [Goal S G] [DecidableEq S] [DecidableEq A]
    {actions : List A} {goal : G} {opn : List (OpenEntry S A)}
    {best : List (PlanNode S A × Int)}
    (hginv : goodInv actions goal opn best) :
    ∀ (r : List A) (s : S) (n : PlanNode S A) (gs C : Int),
      n.state = s → lookupBest best n = some gs → gs ≤ C →
      validSeq actions s r = true →
      Goal.is_satisfied goal (applySeq s r) = true →
      ∃ x ∈ opn, ∃ r2, validSeq actions x.node.state r2 = true ∧
        Goal.is_satisfied goal (applySeq x.node.state r2) = true ∧
        x.g + seqCost x.node.state r2 ≤ C + seqCost s r := by
  intro r
  induction r with
  | nil =>
    intro s n gs C hns hlk hle _ hsat
    rcases hginv n gs hlk with ⟨x, hxopn, hxn, hxg⟩ | ⟨hnsat, _⟩
    · refine ⟨x, hxopn, [], rfl, ?_, ?_⟩
      · rw [hxn, hns]
        simpa [applySeq] using hsat
      · simp only [seqCost]
        omega
    · rw [hns] at hnsat
      simp only [applySeq] at hsat
      rw [hsat] at hnsat
      cases hnsat
  | cons a r' ih =>
    intro s n gs C hns hlk hle hv hsat
    rcases hginv n gs hlk with ⟨x, hxopn, hxn, hxg⟩ | ⟨hnsat, hbounds⟩
    · refine ⟨x, hxopn, a :: r', ?_, ?_, ?_⟩
      · rw [hxn, hns]; exact hv
      · rw [hxn, hns]; exact hsat
      · rw [hxn, hns]
        omega
    · simp only [validSeq, Bool.and_eq_true, decide_eq_true_eq] at hv
      obtain ⟨⟨ha, hap⟩, hv'⟩ := hv
      rw [hns] at hbounds
      obtain ⟨g', hg', hle'⟩ := hbounds a ha hap
      have hstep := ih (Action.apply a s) ⟨Action.apply a s, some a⟩ g'
        (C + Action.cost a s) rfl hg' (by omega) hv'
        (by simpa [applySeq] using hsat)
      obtain ⟨x, hxopn, r2, hr2v, hr2s, hr2le⟩ := hstep
      refine ⟨x, hxopn, r2, hr2v, hr2s, ?_⟩
      simp only [seqCost]
      omega

/-- Soundness of the search loop: any returned pair consists of a valid
action sequence from the initial state reaching a satisfying state, with the
returned cost equal to the sequence's total cost. -/
theorem astarLoop_sound [Action S A] [Goal S G] [DecidableEq S] [DecidableEq A]
    (actions : List A) (goal : G) (s0 : S) :
    ∀ (fuel : Nat) (opn : List (OpenEntry S A)) (best : List (PlanNode S A × Int)),
      (∀ x ∈ opn, entryOk actions s0 x) →
      ∀ (p : List A) (c : Int), astarLoop actions goal fuel opn best = some (p, c) →
        validSeq actions s0 p = true ∧
        Goal.is_satisfied goal (applySeq s0 p) = true ∧
        seqCost s0 p = c := by
  intro fuel
  induction fuel with
  | zero => intro opn best _ p c h; simp [astarLoop] at h
  | succ fuel ih =>
    intro opn best hsound p c h
    simp only [astarLoop] at h
    cases hsel : selectMin goal opn with
    | none => rw [hsel] at h; cases h
    | some pr =>
      obtain ⟨e, rest⟩ := pr
      rw [hsel] at h
      have hperm := selectMin_perm goal opn rest e hsel
      have he : entryOk actions s0 e :=
        hsound e (hperm.mem_iff.mpr (List.mem_cons_self e rest))
      have hrest : ∀ x ∈ rest, entryOk actions s0 x := fun x hx =>
        hsound x (hperm.mem_iff.mpr (List.mem_cons_of_mem e hx))
      cases hsat : Goal.is_satisfied goal e.node.state with
      | true =>
        simp only [hsat, if_true, Option.some.injEq, Prod.mk.injEq] at h
        obtain ⟨rfl, rfl⟩ := h
        obtain ⟨hv, hs, hc⟩ := he
        exact ⟨hv, by rw [hs]; exact hsat, hc⟩
      | false =>
        simp only [hsat, Bool.false_eq_true, if_false] at h
        have hexp : ∀ best2 : List (PlanNode S A × Int),
            astarLoop actions goal fuel
              (rest ++ (relaxChildren e actions best2).2)
              (relaxChildren e actions best2).1 = some (p, c) →
            validSeq actions s0 p = true ∧
            Goal.is_satisfied goal (applySeq s0 p) = true ∧
            seqCost s0 p = c := by
          intro best2 h2
          refine ih _ _ ?_ p c h2
          intro x hx
          rcases List.mem_append.mp hx with hx | hx
          · exact hrest x hx
          · exact relaxChildren_entryOk he best2 x hx
        cases hlk : lookupBest best e.node with
        | none =>
          rw [hlk] at h
          exact hexp best h
        | some gB =>
          rw [hlk] at h
          by_cases hlt : gB < e.g
          · simp only [hlt, if_true] at h
            exact ih rest best hrest p c h
          · simp only [hlt, if_false] at h
            exact hexp best h

/-- Optimality of the search loop, under non-negative costs and an
admissible, non-negative heuristic: any returned cost is at most the cost of
any valid goal-reaching sequence. -/
theorem astarLoop_optimal [Action S A] [Goal S G] [DecidableEq S] [DecidableEq A]
    (actions : List A) (goal : G) (s0 : S)
    (hcost : ∀ a ∈ actions, ∀ s : S, 0 ≤ Action.cost a s)
    (hadm : ∀ s : S, Reachable actions s0 s → ∀ r, validSeq actions s r = true →
        Goal.is_satisfied goal (applySeq s r) = true →
        Goal.heuristic goal s ≤ seqCost s r)
    (hpos : ∀ s : S, Reachable actions s0 s → 0 ≤ Goal.heuristic goal s)
    (q : List A) (hq : validSeq actions s0 q = true)
    (hqs : Goal.is_satisfied goal (applySeq s0 q) = true) :
    ∀ (fuel : Nat) (opn : List (OpenEntry S A)) (best : List (PlanNode S A × Int)),
      (∀ x ∈ opn, entryOk actions s0 x) →
      bestInv opn best →
      goodInv actions goal opn best →
      startInv s0 best →
      ∀ (p : List A) (c : Int), astarLoop actions goal fuel opn best = some (p, c) →
        c ≤ seqCost s0 q := by
  intro fuel
  induction fuel with
  | zero => intro opn best _ _ _ _ p c h; simp [astarLoop] at h
  | succ fuel ih =>
    intro opn best hsound hbinv hginv hstart p c h
    simp only [astarLoop] at h
    cases hsel : selectMin goal opn with
    | none => rw [hsel] at h; cases h
    | some pr =>
      obtain ⟨e, rest⟩ := pr
      rw [hsel] at h
      have hperm := selectMin_perm goal opn rest e hsel
      have hein : e ∈ opn := hperm.mem_iff.mpr (List.mem_cons_self e rest)
      have he : entryOk actions s0 e := hsound e hein
      have hrest : ∀ x ∈ rest, entryOk actions s0 x := fun x hx =>
        hsound x (hperm.mem_iff.mpr (List.mem_cons_of_mem e hx))
      cases hsat : Goal.is_satisfied goal e.node.state with
      | true =>
        simp only [hsat, if_true, Option.some.injEq, Prod.mk.injEq] at h
        obtain ⟨rfl, rfl⟩ := h
        obtain ⟨g0, hg0, hle0⟩ := hstart
        obtain ⟨x, hxopn, r2, hr2v, hr2s, hr2le⟩ :=
          frontier hginv q s0 ⟨s0, none⟩ g0 0 rfl hg0 hle0 hq hqs
        have hmin := selectMin_min goal opn rest e hsel x hxopn
        have hxok := hsound x hxopn
        have hxreach : Reachable actions s0 x.node.state :=
          ⟨x.path, hxok.1, hxok.2.1⟩
        have hadmx := hadm x.node.state hxreach r2 hr2v hr2s
        have hereach : Reachable actions s0 e.node.state :=
          ⟨e.path, he.1, he.2.1⟩
        have hpose := hpos e.node.state hereach
        simp only [fScore] at hmin
        omega
      | false =>
        simp only [hsat, Bool.false_eq_true, if_false] at h
        cases hlk : lookupBest best e.node with
        | none =>
          obtain ⟨g, hg, _⟩ := hbinv e hein
          rw [hlk] at hg
          cases hg
        | some gB =>
          rw [hlk] at h
          by_cases hlt : gB < e.g
          · simp only [hlt, if_true] at h
            refine ih rest best hrest ?_ ?_ hstart p c h
            · exact fun x hx =>
                hbinv x (hperm.mem_iff.mpr (List.mem_cons_of_mem e hx))
            · exact stale_goodInv hperm hginv hlk hlt
          · simp only [hlt, if_false] at h
            have hbe : lookupBest best e.node = some e.g := by
              obtain ⟨g, hg, hle⟩ := hbinv e hein
              rw [hlk] at hg
              have hgg : gB = g := by injection hg
              rw [hlk]
              congr 1
              omega
            refine ih _ _ ?_ (expand_bestInv hperm hbinv)
              (expand_goodInv hcost hperm hginv hbe hsat)
              (expand_startInv hstart) p c h
            intro x hx
            rcases List.mem_append.mp hx with hx | hx
            · exact hrest x hx
            · exact relaxChildren_entryOk he best x hx

/-! ### Concrete worlds used to instantiate the planner theorems -/

/-- A three-state world: a start state and two absorbing states. -/
inductive CexS | start | g1 | g2
  deriving DecidableEq, Fintype

/-- Two actions from the start state, of costs 5 and 1. -/
inductive CexA | a1 | a2
  deriving DecidableEq, Fintype

instance : Action CexS CexA where
  is_applicable := fun _ s => match s with | CexS.start => true | _ => false
  apply := fun a s => match a, s with
    | CexA.a1, CexS.start => CexS.g1
    | CexA.a2, CexS.start => CexS.g2
    | _, t => t
  cost := fun a _ => match a with | CexA.a1 => 5 | CexA.a2 => 1

/-- A goal satisfied away from the start, with an admissible heuristic that
is negative at one satisfying state. -/
inductive CexGNeg | mk
  deriving DecidableEq

instance : Goal CexS CexGNeg where
  is_satisfied := fun _ s => match s with | CexS.start => false | _ => true
  heuristic := fun _ s => match s with
    | CexS.start => 0 | CexS.g1 => -10 | CexS.g2 => 0

/-- The same satisfaction predicate with the default all-zero heuristic. -/
inductive CexGZero | mk
  deriving DecidableEq

instance : Goal CexS CexGZero where
  is_satisfied := fun _ s => match s with | CexS.start => false | _ => true

/-- A goal satisfied nowhere. -/
inductive CexGFalse | mk
  deriving DecidableEq

instance : Goal CexS CexGFalse where
  is_satisfied := fun _ _ => false

def cexActions : List CexA := [CexA.a1, CexA.a2]

/-! ### Claim theorems about the planner -/

/-- C2: soundness of returned plans. If plan returns a sequence with a cost,
the sequence is valid from the initial state (each action drawn from the
collection and applicable where it is used), its final state satisfies the
goal, and the returned cost is the sum of the per-step costs. -/
theorem plan_sound [Action S A] [Goal S G] [DecidableEq S] [DecidableEq A]
    (fuel : Nat) (initial_state : S) (actions : List A) (goal : G)
    (p : List A) (c : Int)
    (h : plan fuel initial_state actions goal = some (p, c)) :
    validSeq actions initial_state p = true ∧
    Goal.is_satisfied goal (applySeq initial_state p) = true ∧
    seqCost initial_state p = c := by
  refine astarLoop_sound actions goal initial_state fuel _ _ ?_ p c h
  intro x hx
  simp only [List.mem_singleton] at hx
  subst hx
  exact ⟨rfl, rfl, rfl⟩

/-- Witness for C2 at a concrete input: the planner's result on the
three-state world is checked against the soundness theorem's conclusion. -/
theorem plan_sound_witness :
    validSeq cexActions CexS.start [CexA.a2] = true ∧
    Goal.is_satisfied CexGZero.mk (applySeq CexS.start [CexA.a2]) = true ∧
    seqCost CexS.start [CexA.a2] = 1 :=
  plan_sound 5 CexS.start cexActions CexGZero.mk [CexA.a2] 1 (by decide)

/-- C1 (amended): optimality. Under non-negative action costs and an
admissible and non-negative heuristic on reachable states, a returned cost
is at most the total cost of every valid goal-reaching action sequence. -/
theorem plan_optimal [Action S A] [Goal S G] [DecidableEq S] [DecidableEq A]
    (fuel : Nat) (initial_state : S) (actions : List A) (goal : G)
    (hcost : ∀ a ∈ actions, ∀ s : S, 0 ≤ Action.cost a s)
    (hadm : ∀ s : S, Reachable actions initial_state s →
        ∀ r, validSeq actions s r = true →
        Goal.is_satisfied goal (applySeq s r) = true →
        Goal.heuristic goal s ≤ seqCost s r)
    (hpos : ∀ s : S, Reachable actions initial_state s →
        0 ≤ Goal.heuristic goal s)
    (p : List A) (c : Int)
    (h : plan fuel initial_state actions goal = some (p, c))
    (q : List A) (hq : validSeq actions initial_state q = true)
    (hqs : Goal.is_satisfied goal (applySeq initial_state q) = true) :
    c ≤ seqCost initial_state q := by
  refine astarLoop_optimal actions goal initial_state hcost hadm hpos q hq hqs
    fuel _ _ ?_ ?_ ?_ ?_ p c h
  · intro x hx
    simp only [List.mem_singleton] at hx
    subst hx
    exact ⟨rfl, rfl, rfl⟩
  · intro x hx
    simp only [List.mem_singleton] at hx
    subst hx
    exact ⟨0, by simp [lookupBest], le_refl 0⟩
  · intro n gn hlk
    simp only [lookupBest] at hlk
    by_cases hn : n = (⟨initial_state, none⟩ : PlanNode S A)
    · rw [if_pos hn] at hlk
      injection hlk with h0
      exact Or.inl ⟨⟨⟨initial_state, none⟩, 0, []⟩, List.mem_singleton_self _,
        hn.symm, h0⟩
    · rw [if_neg hn] at hlk
      cases hlk
  · exact ⟨0, by simp [lookupBest], le_refl 0⟩

/-- Witness for C1 (amended) at a concrete input: on the three-state world
with the zero heuristic the planner returns cost 1, and the theorem bounds
it by the cost of the alternative sequence of cost 5. -/
theorem plan_optimal_witness :
    plan 5 CexS.start cexActions CexGZero.mk = some ([CexA.a2], 1) ∧
    (1 : Int) ≤ seqCost CexS.start [CexA.a1] := by
  constructor
  · decide
  · exact plan_optimal 5 CexS.start cexActions CexGZero.mk
      (by decide)
      (fun s _ r hv _ => seqCost_nonneg (by decide) s r hv)
      (fun s _ => le_refl 0)
      [CexA.a2] 1 (by decide)
      [CexA.a1] (by decide) (by decide)

/-- Counterexample to C1 as frozen: all costs are non-negative and the
heuristic is admissible (it never exceeds the true remaining cost on any
reachable state), yet the planner returns cost 5 although the valid
goal-reaching sequence of the second action costs 1: admissibility alone,
with a negative heuristic value allowed, does not give optimality. -/
theorem plan_optimal_counterexample :
    (∀ a ∈ cexActions, ∀ s : CexS, 0 ≤ Action.cost a s) ∧
    (∀ s : CexS, Reachable cexActions CexS.start s →
      ∀ r : List CexA, validSeq cexActions s r = true →
        Goal.is_satisfied CexGNeg.mk (applySeq s r) = true →
        Goal.heuristic CexGNeg.mk s ≤ seqCost s r) ∧
    plan 5 CexS.start cexActions CexGNeg.mk = some ([CexA.a1], 5) ∧
    validSeq cexActions CexS.start [CexA.a2] = true ∧
    Goal.is_satisfied CexGNeg.mk (applySeq CexS.start [CexA.a2]) = true ∧
    seqCost CexS.start [CexA.a2] < 5 := by
  refine ⟨by decide, ?_, by decide, by decide, by decide, by decide⟩
  intro s _ r hv _
  have h0 : 0 ≤ seqCost s r := seqCost_nonneg (by decide) s r hv
  have h1 : Goal.heuristic CexGNeg.mk s ≤ 0 := by cases s <;> decide
  omega

/-- C4: a goal already satisfied in the initial state yields the present
result of the empty sequence at cost 0, for any action collection. -/
theorem plan_satisfied_empty [Action S A] [Goal S G] [DecidableEq S] [DecidableEq A]
    (fuel : Nat) (initial_state : S) (actions : List A) (goal : G)
    (h : Goal.is_satisfied goal initial_state = true) :
    plan (fuel + 1) initial_state actions goal = some ([], 0) := by
  simp [plan, astarLoop, selectMin, h]

/-- Witness for C4 at a concrete input, with the empty action collection. -/
theorem plan_satisfied_empty_witness :
    plan 1 CexS.g1 ([] : List CexA) CexGZero.mk = some ([], 0) :=
  plan_satisfied_empty 0 CexS.g1 ([] : List CexA) CexGZero.mk (by decide)

/-- C5: when no valid action sequence from the initial state reaches a
goal-satisfying state (the empty sequence included, so the initial state does
not satisfy the goal), plan returns the absent result; the embedding is a
total function, so no other outcome is possible. -/
theorem plan_unreachable_none [Action S A] [Goal S G] [DecidableEq S] [DecidableEq A]
    (fuel : Nat) (initial_state : S) (actions : List A) (goal : G)
    (h : ∀ p : List A, validSeq actions initial_state p = true →
        Goal.is_satisfied goal (applySeq initial_state p) = false) :
    plan fuel initial_state actions goal = none := by
  cases hr : plan fuel initial_state actions goal with
  | none => rfl
  | some pc =>
    obtain ⟨p, c⟩ := pc
    have hs := astarLoop_sound actions goal initial_state fuel _ _
      (fun x hx => by
        simp only [List.mem_singleton] at hx
        subst hx
        exact ⟨rfl, rfl, rfl⟩) p c hr
    have hfalse := h p hs.1
    rw [hs.2.1] at hfalse
    cases hfalse

/-- Witness for C5 at a concrete input: a goal satisfied nowhere. -/
theorem plan_unreachable_none_witness :
    plan 3 CexS.start cexActions CexGFalse.mk = none :=
  plan_unreachable_none 3 CexS.start cexActions CexGFalse.mk (fun _p _ => rfl)

/-! ### Lemmas about the goal sort -/

theorem insertGoalSorted_perm [Goal S G] (st : S) (g : G) (l : List G) :
    (insertGoalSorted st g l).Perm (g :: l) := by
  induction l with
  | nil => exact List.Perm.refl _
  | cons h t ih =>
    simp only [insertGoalSorted]
    by_cases hle : Goal.priority h st ≤ Goal.priority g st
    · rw [if_pos hle]
    · rw [if_neg hle]
      exact (ih.cons h).trans (List.Perm.swap g h t)

theorem sort_goals_perm [Goal S G] (st : S) (l : List G) :
    (sort_goals st l).Perm l := by
  induction l with
  | nil => exact List.Perm.refl _
  | cons g t ih =>
    exact (insertGoalSorted_perm st g (sort_goals st t)).trans (ih.cons g)

theorem insertGoalSorted_sorted [Goal S G] (st : S) (g : G) (l : List G)
    (hl : l.Pairwise (fun x y => Goal.priority y st ≤ Goal.priority x st)) :
    (insertGoalSorted st g l).Pairwise
      (fun x y => Goal.priority y st ≤ Goal.priority x st) := by
  induction l with
  | nil => simp [insertGoalSorted]
  | cons h t ih =>
    rcases List.pairwise_cons.mp hl with ⟨hh, ht⟩
    simp only [insertGoalSorted]
    by_cases hle : Goal.priority h st ≤ Goal.priority g st
    · rw [if_pos hle]
      refine List.pairwise_cons.mpr ⟨?_, hl⟩
      intro y hy
      rcases List.mem_cons.mp hy with rfl | hy
      · exact hle
      · exact le_trans (hh y hy) hle
    · rw [if_neg hle]
      refine List.pairwise_cons.mpr ⟨?_, ih ht⟩
      intro y hy
      have := (insertGoalSorted_perm st g t).mem_iff.mp hy
      rcases List.mem_cons.mp this with rfl | hy2
      · exact le_of_lt (lt_of_not_le hle)
      · exact hh y hy2

theorem sort_goals_sorted [Goal S G] (st : S) (l : List G) :
    (sort_goals st l).Pairwise
      (fun x y => Goal.priority y st ≤ Goal.priority x st) := by
  induction l with
  | nil => simp [sort_goals]
  | cons g t ih => exact insertGoalSorted_sorted st g (sort_goals st t) ih

theorem filter_insertGoalSorted [Goal S G] (st : S) (g : G) (l : List G) (c : Int) :
    (insertGoalSorted st g l).filter (fun x => decide (Goal.priority x st = c)) =
      if Goal.priority g st = c then
        g :: l.filter (fun x => decide (Goal.priority x st = c))
      else l.filter (fun x => decide (Goal.priority x st = c)) := by
  induction l with
  | nil => by_cases hg : Goal.priority g st = c <;> simp [insertGoalSorted, hg]
  | cons h t ih =>
    simp only [insertGoalSorted]
    by_cases hle : Goal.priority h st ≤ Goal.priority g st
    · rw [if_pos hle]
      by_cases hg : Goal.priority g st = c <;> simp [List.filter, hg]
    · rw [if_neg hle]
      by_cases hg : Goal.priority g st = c
      · have hh : ¬ (Goal.priority h st = c) := by
          intro hh
          rw [hg] at hle
          rw [hh] at hle
          exact hle (le_refl c)
        simp [List.filter, hg, hh, ih]
      · by_cases hh : Goal.priority h st = c <;> simp [List.filter, hg, hh, ih]

theorem filter_sort_goals [Goal S G] (st : S) (l : List G) (c : Int) :
    (sort_goals st l).filter (fun x => decide (Goal.priority x st = c)) =
      l.filter (fun x => decide (Goal.priority x st = c)) := by
  induction l with
  | nil => rfl
  | cons g t ih =>
    simp only [sort_goals]
    rw [filter_insertGoalSorted]
    by_cases hg : Goal.priority g st = c <;> simp [List.filter, hg, ih]

theorem sort_goals_of_sorted [Goal S G] (st : S) (l : List G)
    (hl : l.Pairwise (fun x y => Goal.priority y st ≤ Goal.priority x st)) :
    sort_goals st l = l := by
  induction l with
  | nil => rfl
  | cons g t ih =>
    rcases List.pairwise_cons.mp hl with ⟨hh, ht⟩
    simp only [sort_goals]
    rw [ih ht]
    cases t with
    | nil => rfl
    | cons h t' =>
      simp only [insertGoalSorted]
      rw [if_pos (hh h (List.mem_cons_self h t'))]

theorem sort_goals_idem [Goal S G] (st : S) (l : List G) :
    sort_goals st (sort_goals st l) = sort_goals st l :=
  sort_goals_of_sorted st _ (sort_goals_sorted st l)

/-! ### Lemmas about first-success search and last-maximum selection -/

theorem findSome_eq_none_iff {α β : Type} (f : α → Option β) (l : List α) :
    l.findSome? f = none ↔ ∀ x ∈ l, f x = none := by
  induction l with
  | nil => simp [List.findSome?]
  | cons a t ih =>
    simp only [List.findSome?]
    cases hfa : f a with
    | none => simp [hfa]
    | some b => simp [hfa]

theorem findSome_eq_some_iff {α β : Type} (f : α → Option β) (l : List α) (b : β) :
    l.findSome? f = some b ↔
      ∃ l1 x l2, l = l1 ++ x :: l2 ∧ (∀ y ∈ l1, f y = none) ∧ f x = some b := by
  induction l with
  | nil =>
    simp only [List.findSome?]
    constructor
    · intro h; cases h
    · rintro ⟨l1, x, l2, h, -, -⟩
      exact absurd h (List.append_ne_nil_of_right_ne_nil l1 (List.cons_ne_nil x l2)).symm
  | cons a t ih =>
    simp only [List.findSome?]
    cases hfa : f a with
    | some b' =>
      constructor
      · intro h
        have hb : b' = b := by injection h
        exact ⟨[], a, t, rfl, by simp, by rw [hfa, hb]⟩
      · rintro ⟨l1, x, l2, hdec, hnone, hx⟩
        cases l1 with
        | nil =>
          simp only [List.nil_append, List.cons.injEq] at hdec
          obtain ⟨rfl, rfl⟩ := hdec
          rw [hfa] at hx
          exact hx
        | cons y l1' =>
          simp only [List.cons_append, List.cons.injEq] at hdec
          obtain ⟨rfl, -⟩ := hdec
          have hya := hnone a (List.mem_cons_self a l1')
          rw [hfa] at hya
          cases hya
    | none =>
      rw [ih]
      constructor
      · rintro ⟨l1, x, l2, rfl, hnone, hx⟩
        refine ⟨a :: l1, x, l2, rfl, ?_, hx⟩
        intro y hy
        rcases List.mem_cons.mp hy with rfl | hy
        · exact hfa
        · exact hnone y hy
      · rintro ⟨l1, x, l2, hdec, hnone, hx⟩
        cases l1 with
        | nil =>
          simp only [List.nil_append, List.cons.injEq] at hdec
          obtain ⟨rfl, rfl⟩ := hdec
          rw [hfa] at hx
          cases hx
        | cons y l1' =>
          simp only [List.cons_append, List.cons.injEq] at hdec
          obtain ⟨rfl, rfl⟩ := hdec
          refine ⟨l1', x, l2, rfl, ?_, hx⟩
          intro z hz
          exact hnone z (List.mem_cons_of_mem a hz)

theorem maxByKeyLast_eq_none_iff {α : Type} (f : α → Int) (l : List α) :
    maxByKeyLast f l = none ↔ l = [] := by
  cases l with
  | nil => simp [maxByKeyLast]
  | cons x t =>
    simp only [maxByKeyLast]
    cases h : maxByKeyLast f t with
    | none => simp
    | some m =>
      by_cases hlt : f m < f x <;> simp [hlt]

theorem maxByKeyLast_eq_some_iff {α : Type} (f : α → Int) :
    ∀ (l : List α) (m : α),
      maxByKeyLast f l = some m ↔
        ∃ l1 l2, l = l1 ++ m :: l2 ∧ (∀ x ∈ l1, f x ≤ f m) ∧
          (∀ x ∈ l2, f x < f m) := by
  intro l
  induction l with
  | nil =>
    intro m
    simp only [maxByKeyLast]
    constructor
    · intro h; cases h
    · rintro ⟨l1, l2, h, -, -⟩
      exact absurd h (List.append_ne_nil_of_right_ne_nil l1 (List.cons_ne_nil m l2)).symm
  | cons a t ih =>
    intro m
    simp only [maxByKeyLast]
    cases ht : maxByKeyLast f t with
    | none =>
      have hte : t = [] := (maxByKeyLast_eq_none_iff f t).mp ht
      subst hte
      constructor
      · intro h
        have : a = m := by injection h
        subst this
        exact ⟨[], [], rfl, by simp, by simp⟩
      · rintro ⟨l1, l2, hdec, h1, h2⟩
        cases l1 with
        | nil =>
          simp only [List.nil_append, List.cons.injEq] at hdec
          obtain ⟨rfl, -⟩ := hdec
          rfl
        | cons y l1' =>
          simp only [List.cons_append, List.cons.injEq] at hdec
          exact absurd hdec.2
            (List.append_ne_nil_of_right_ne_nil l1' (List.cons_ne_nil m l2)).symm
    | some m' =>
      obtain ⟨l1', l2', hdec', hle', hlt'⟩ := (ih m').mp ht
      have hmem' : ∀ x ∈ t, f x ≤ f m' := by
        intro x hx
        rw [hdec'] at hx
        rcases List.mem_append.mp hx with hx | hx
        · exact hle' x hx
        · rcases List.mem_cons.mp hx with rfl | hx
          · exact le_refl _
          · exact le_of_lt (hlt' x hx)
      by_cases hlt : f m' < f a
      · show (if f m' < f a then some a else some m') = some m ↔ _
        rw [if_pos hlt]
        constructor
        · intro h
          have : a = m := by injection h
          subst this
          refine ⟨[], t, rfl, by simp, ?_⟩
          intro x hx
          exact lt_of_le_of_lt (hmem' x hx) hlt
        · rintro ⟨l1, l2, hdec, h1, h2⟩
          cases l1 with
          | nil =>
            simp only [List.nil_append, List.cons.injEq] at hdec
            obtain ⟨rfl, -⟩ := hdec
            rfl
          | cons y l1' =>
            simp only [List.cons_append, List.cons.injEq] at hdec
            obtain ⟨rfl, hteq⟩ := hdec
            have hmax : maxByKeyLast f t = some m := (ih m).mpr
              ⟨l1', l2, hteq, fun x hx => h1 x (List.mem_cons_of_mem a hx), h2⟩
            rw [ht] at hmax
            have hmm : m' = m := by injection hmax
            subst hmm
            have := h1 a (List.mem_cons_self a l1')
            omega
      · show (if f m' < f a then some a else some m') = some m ↔ _
        rw [if_neg hlt]
        constructor
        · intro h
          have : m' = m := by injection h
          subst this
          refine ⟨a :: l1', l2', by rw [hdec', List.cons_append], ?_, hlt'⟩
          intro x hx
          rcases List.mem_cons.mp hx with rfl | hx
          · exact le_of_not_lt hlt
          · exact hle' x hx
        · rintro ⟨l1, l2, hdec, h1, h2⟩
          cases l1 with
          | nil =>
            simp only [List.nil_append, List.cons.injEq] at hdec
            obtain ⟨rfl, hteq⟩ := hdec
            have hm'mem : m' ∈ t := by
              rw [hdec']
              exact List.mem_append_right l1' (List.mem_cons_self m' l2')
            have hcon := h2 m' (hteq ▸ hm'mem)
            exact absurd hcon hlt
          | cons y l1' =>
            simp only [List.cons_append, List.cons.injEq] at hdec
            obtain ⟨rfl, hteq⟩ := hdec
            have hmax : maxByKeyLast f t = some m := (ih m).mpr
              ⟨l1', l2, hteq, fun x hx => h1 x (List.mem_cons_of_mem a hx), h2⟩
            rw [ht] at hmax
            exact hmax

/-! ### Claim theorems about the agent layer -/

/-- C6: Agent construction sorts the goals stably by descending priority
under the initial state: the stored goals are sorted in descending priority
order, are a permutation of the input, and within each priority class the
input order is preserved (the stability of the sort). -/
theorem agent_new_sorted_stable [Goal S G] (st : S) (actions : List A)
    (gs : List G) :
    ((Agent.new st actions gs).goals).Pairwise
      (fun x y => Goal.priority y st ≤ Goal.priority x st) ∧
    ((Agent.new st actions gs).goals).Perm gs ∧
    ∀ c : Int,
      ((Agent.new st actions gs).goals).filter
          (fun x => decide (Goal.priority x st = c)) =
        gs.filter (fun x => decide (Goal.priority x st = c)) :=
  ⟨sort_goals_sorted st gs, sort_goals_perm st gs,
    fun c => filter_sort_goals st gs c⟩

/-- C7: plan_dynamic is idempotent. Re-running plan_dynamic on the agent it
produced, with no mutation in between, returns the same agent and the same
result, because sorting an already sorted goal list changes nothing. -/
theorem plan_dynamic_idem [Action S A] [Goal S G] [DecidableEq S] [DecidableEq A]
    (fuel : Nat) (ag : Agent S A G) :
    Agent.plan_dynamic fuel (Agent.plan_dynamic fuel ag).1 =
      Agent.plan_dynamic fuel ag := by
  simp only [Agent.plan_dynamic]
  rw [sort_goals_idem]

/-- C9: the frame of plan_dynamic. The updated agent keeps the state and the
action sequence unchanged (in particular the actions are not reordered), and
its goal sequence is a permutation of the previous one. plan_constant,
plan_all and plan_profit take the agent by shared reference in the source
and are embedded as pure functions, so they change no field. -/
theorem plan_dynamic_frame [Action S A] [Goal S G] [DecidableEq S] [DecidableEq A]
    (fuel : Nat) (ag : Agent S A G) :
    (Agent.plan_dynamic fuel ag).1.state = ag.state ∧
    (Agent.plan_dynamic fuel ag).1.actions = ag.actions ∧
    ((Agent.plan_dynamic fuel ag).1.goals).Perm ag.goals :=
  ⟨rfl, rfl, sort_goals_perm ag.state ag.goals⟩

/-- C8: plan_constant returns the first goal, in the stored order, for which
the planner succeeds, together with that plan and cost; it returns the
absent result exactly when the planner fails on every goal. -/
theorem plan_constant_spec [Action S A] [Goal S G] [DecidableEq S] [DecidableEq A]
    (fuel : Nat) (ag : Agent S A G) :
    (Agent.plan_constant fuel ag = none ↔
      ∀ g ∈ ag.goals, plan fuel ag.state ag.actions g = none) ∧
    ∀ (g : G) (p : List A) (c : Int),
      Agent.plan_constant fuel ag = some (g, p, c) ↔
        ∃ l1 l2, ag.goals = l1 ++ g :: l2 ∧
          (∀ g2 ∈ l1, plan fuel ag.state ag.actions g2 = none) ∧
          plan fuel ag.state ag.actions g = some (p, c) := by
  constructor
  · rw [Agent.plan_constant, findSome_eq_none_iff]
    constructor
    · intro h g hg
      exact Option.map_eq_none'.mp (h g hg)
    · intro h g hg
      rw [h g hg]
      rfl
  · intro g p c
    rw [Agent.plan_constant, findSome_eq_some_iff]
    constructor
    · rintro ⟨l1, x, l2, hdec, hnone, hx⟩
      cases hpx : plan fuel ag.state ag.actions x with
      | none => rw [hpx] at hx; cases hx
      | some pc =>
        obtain ⟨pp, cc⟩ := pc
        rw [hpx] at hx
        simp only [Option.map_some', Option.some.injEq, Prod.mk.injEq] at hx
        obtain ⟨rfl, rfl, rfl⟩ := hx
        refine ⟨l1, l2, hdec, ?_, hpx⟩
        intro g2 hg2
        exact Option.map_eq_none'.mp (hnone g2 hg2)
    · rintro ⟨l1, l2, hdec, hnone, hg⟩
      refine ⟨l1, g, l2, hdec, ?_, ?_⟩
      · intro y hy
        rw [hnone y hy]
        rfl
      · rw [hg]
        rfl

/-- C10: plan_all keeps the goal order. Its entries' goals are exactly the
goals, in stored order, on which the planner succeeds; each entry carries
the planner's own plan and cost for its goal; and every successful goal
contributes its entry. -/
theorem plan_all_spec [Action S A] [Goal S G] [DecidableEq S] [DecidableEq A]
    (fuel : Nat) (ag : Agent S A G) :
    ((Agent.plan_all fuel ag).map (fun ent => ent.1) =
      ag.goals.filter (fun g => (plan fuel ag.state ag.actions g).isSome)) ∧
    (∀ ent ∈ Agent.plan_all fuel ag,
      plan fuel ag.state ag.actions ent.1 = some (ent.2.1, ent.2.2)) ∧
    (∀ g ∈ ag.goals, ∀ (p : List A) (c : Int),
      plan fuel ag.state ag.actions g = some (p, c) →
      (g, p, c) ∈ Agent.plan_all fuel ag) := by
  refine ⟨?_, ?_, ?_⟩
  · rw [Agent.plan_all]
    generalize ag.goals = l
    induction l with
    | nil => rfl
    | cons g t ih =>
      cases hg : plan fuel ag.state ag.actions g with
      | none => simp [List.filterMap_cons, List.filter_cons, hg, ih]
      | some pc => simp [List.filterMap_cons, List.filter_cons, hg, ih]
  · intro ent hent
    rw [Agent.plan_all] at hent
    obtain ⟨g, hg, hmap⟩ := List.mem_filterMap.mp hent
    cases hpg : plan fuel ag.state ag.actions g with
    | none => rw [hpg] at hmap; cases hmap
    | some pc =>
      rw [hpg] at hmap
      simp only [Option.map_some', Option.some.injEq] at hmap
      rw [← hmap]
      exact hpg
  · intro g hg p c hpg
    rw [Agent.plan_all]
    refine List.mem_filterMap.mpr ⟨g, hg, ?_⟩
    rw [hpg]
    rfl

/-- C3 (amended): plan_profit maximizes profit (priority under the agent's
state minus cost) over the entries of plan_all; among several entries of
maximal profit it returns the one occurring last in plan_all's order; it
returns the absent result exactly when plan_all is empty. -/
theorem plan_profit_spec [Action S A] [Goal S G] [DecidableEq S] [DecidableEq A]
    (fuel : Nat) (ag : Agent S A G) :
    (Agent.plan_profit fuel ag = none ↔ Agent.plan_all fuel ag = []) ∧
    ∀ ent : G × List A × Int, Agent.plan_profit fuel ag = some ent →
      ∃ l1 l2, Agent.plan_all fuel ag = l1 ++ ent :: l2 ∧
        (∀ x ∈ l1, profit ag.state x ≤ profit ag.state ent) ∧
        (∀ x ∈ l2, profit ag.state x < profit ag.state ent) := by
  constructor
  · exact maxByKeyLast_eq_none_iff _ _
  · intro ent h
    exact (maxByKeyLast_eq_some_iff _ _ ent).mp h

/-! ### A two-goal agent on which the profit tie-break is visible -/

/-- A single never-applicable action over the unit state. -/
inductive DemoA | mk
  deriving DecidableEq

/-- Two goals, both immediately satisfied, with equal (default) priority. -/
inductive DemoG | g1 | g2
  deriving DecidableEq

instance : Action Unit DemoA where
  is_applicable := fun _ _ => false
  apply := fun _ s => s

instance : Goal Unit DemoG where
  is_satisfied := fun _ _ => true

def demoAgent : Agent Unit DemoA DemoG := Agent.new () [] [DemoG.g1, DemoG.g2]

/-- Counterexample to C3 as frozen: both plan_all entries attain the maximal
profit, the first in plan_all's order is the g1 entry, yet plan_profit
returns the g2 entry — Rust's max_by_key keeps the last maximum, so the
tie-break is the last entry, not the first. -/
theorem plan_profit_counterexample :
    Agent.plan_all 1 demoAgent =
      [(DemoG.g1, [], 0), (DemoG.g2, [], 0)] ∧
    profit demoAgent.state ((DemoG.g1, [], 0) : DemoG × List DemoA × Int) =
      profit demoAgent.state ((DemoG.g2, [], 0) : DemoG × List DemoA × Int) ∧
    Agent.plan_profit 1 demoAgent = some (DemoG.g2, [], 0) ∧
    ¬ Agent.plan_profit 1 demoAgent = some (DemoG.g1, [], 0) :=
  ⟨by decide, by decide, by decide, by decide⟩

end Planning
